import Mathlib

/-!
Verification of `train_ppi_baseline.py`, a driver script that trains and
evaluates two graph-neural-network variants (a layered graph-convolution
model and a single-layer graph-attention model) on the PPI benchmark.

Real numbers of the script are modelled as rationals `ℚ`; the transcendental
functions the script delegates to the numeric library (the exponential inside
`F.softmax`, the `F.elu` output activation, the `BCEWithLogitsLoss` loss) are
taken as explicit function parameters, so that every structural fact about
the script is independent of their numeric details.
-/

namespace PPI

/-- A graph as used by the script: a node count and a list of directed edge
pairs, as returned by `g.all_edges()` (the iteration order of the Python
edge loop is exactly the order of this list). -/
structure Graph where
  n : ℕ
  edges : List (Fin n × Fin n)

/-- A dense real matrix, indexed by `Fin`. -/
def Mat (r c : ℕ) : Type := Fin r → Fin c → ℚ

/-- The all-zero matrix, `torch.zeros((r, c))`. -/
def zeros (r c : ℕ) : Mat r c := fun _ _ => 0

/-- Parameters of `GraphAttentionNetwork`: the `nn.Linear(input_F, output_F)`
projection (`W`, `b`), the `nn.Linear(2*output_F, 1)` attention map (`a`,
`ab`), the leaky-rectifier slope and the output activation. -/
structure GAT (inF outF : ℕ) where
  W : Fin outF → Fin inF → ℚ
  b : Fin outF → ℚ
  a : Fin (2 * outF) → ℚ
  ab : ℚ
  slope : ℚ
  act : ℚ → ℚ

/-- Models `torch.cat((x, y))` for two vectors of the same length `F`. -/
def catVec {F : ℕ} (x y : Fin F → ℚ) : Fin (2 * F) → ℚ := fun k =>
  if h : (k : ℕ) < F then x ⟨k, h⟩ else y ⟨(k : ℕ) - F, by omega⟩

/-- Models `F.leaky_relu(x, negative_slope=slope)`. -/
def leakyRelu (slope x : ℚ) : ℚ := if x < 0 then slope * x else x

namespace GAT

variable {inF outF : ℕ}

/-- Models `Wh = self.linear(inputs)`: row `i` is `W · X[i] + b`. -/
def Wh (M : GAT inF outF) {n : ℕ} (X : Mat n inF) : Mat n outF :=
  fun i k => (∑ j, M.W k j * X i j) + M.b k

/-- Models `self.attention(torch.cat((x, y)))`: the learned linear map from the
concatenation of two projected feature rows to a scalar. -/
def attnScore (M : GAT inF outF) (x y : Fin outF → ℚ) : ℚ :=
  (∑ k, M.a k * catVec x y k) + M.ab

/-- One iteration of the edge loop: `coeffs[u,v] = coeff; coeffs[v,u] = coeff`
where `coeff = self.attention(torch.cat((Wh[u], Wh[v])))`. -/
def edgeStep (M : GAT inF outF) {n : ℕ} (wh : Mat n outF) (m : Mat n n)
    (e : Fin n × Fin n) : Mat n n := fun i j =>
  if (i = e.1 ∧ j = e.2) ∨ (i = e.2 ∧ j = e.1) then M.attnScore (wh e.1) (wh e.2)
  else m i j

/-- The pre-softmax coefficient matrix: `torch.zeros((n_nodes, n_nodes))`
followed by the loop `for u,v in zip(*self.g.all_edges())`. -/
def coeffs (M : GAT inF outF) (g : Graph) (X : Mat g.n inF) : Mat g.n g.n :=
  g.edges.foldl (edgeStep M (M.Wh X)) (zeros g.n g.n)

/-- Models `alpha = F.softmax(F.leaky_relu(coeffs, negative_slope=self.input_slope), dim=1)`,
with `ex` the exponential used by the softmax. -/
def alpha (M : GAT inF outF) (ex : ℚ → ℚ) (g : Graph) (X : Mat g.n inF) :
    Mat g.n g.n := fun i j =>
  ex (leakyRelu M.slope (M.coeffs g X i j)) /
    ∑ k, ex (leakyRelu M.slope (M.coeffs g X i k))

/-- Models `GraphAttentionNetwork.forward`: `self.activation(alpha.mm(Wh))`. -/
def forward (M : GAT inF outF) (ex : ℚ → ℚ) (g : Graph) (X : Mat g.n inF) :
    Mat g.n outF := fun i k =>
  M.act (∑ j, M.alpha ex g X i j * M.Wh X j k)

/-- Models `GraphAttentionNetwork.logits`, which just calls `self(features)`. -/
def logits (M : GAT inF outF) (ex : ℚ → ℚ) (g : Graph) (X : Mat g.n inF) :
    Mat g.n outF := M.forward ex g X

end GAT

/-- Row-wise softmax entry, with `ex` the exponential used by `F.softmax`:
the softmax of row `v` at position `j` divides `ex (v j)` by the sum of `ex`
over the whole row. -/
def softmaxRow {n : ℕ} (ex : ℚ → ℚ) (v : Fin n → ℚ) : Fin n → ℚ :=
  fun j => ex (v j) / ∑ k, ex (v k)

/-- The last edge of `es` (in iteration order) that writes entry `(i, j)` of
the coefficient matrix, i.e. that equals `(i, j)` or `(j, i)`. -/
def lastWriter {n : ℕ} (i j : Fin n) : List (Fin n × Fin n) → Option (Fin n × Fin n)
  | [] => none
  | e :: es =>
    match lastWriter i j es with
    | some x => some x
    | none => if (i = e.1 ∧ j = e.2) ∨ (i = e.2 ∧ j = e.1) then some e else none

/-- Specification-side coefficient matrix: each edge's scalar attention score
is assigned to both mirrored entries (later edges overwriting earlier ones),
and entries covered by no edge stay zero. -/
def specCoeffs {inF outF : ℕ} (M : GAT inF outF) (g : Graph) (X : Mat g.n inF) :
    Mat g.n g.n := fun i j =>
  match lastWriter i j g.edges with
  | some e => M.attnScore (M.Wh X e.1) (M.Wh X e.2)
  | none => 0

lemma foldl_edgeStep_eq_lastWriter {inF outF : ℕ} (M : GAT inF outF) {n : ℕ}
    (wh : Mat n outF) (es : List (Fin n × Fin n)) (m : Mat n n) (i j : Fin n) :
    es.foldl (GAT.edgeStep M wh) m i j =
      (match lastWriter i j es with
       | some e => M.attnScore (wh e.1) (wh e.2)
       | none => m i j) := by
  induction es generalizing m with
  | nil => rfl
  | cons e es ih =>
    rw [List.foldl_cons, ih]
    simp only [lastWriter]
    cases h : lastWriter i j es with
    | some x => rfl
    | none =>
      simp only [GAT.edgeStep]
      by_cases hc : (i = e.1 ∧ j = e.2) ∨ (i = e.2 ∧ j = e.1)
      · rw [if_pos hc, if_pos hc]
      · rw [if_neg hc, if_neg hc]

lemma coeffs_eq_specCoeffs {inF outF : ℕ} (M : GAT inF outF) (g : Graph)
    (X : Mat g.n inF) : M.coeffs g X = specCoeffs M g X := by
  funext i j
  rw [GAT.coeffs, foldl_edgeStep_eq_lastWriter, specCoeffs]
  cases lastWriter i j g.edges <;> rfl

/-- C1: the attention forward pass computes `Wh` as a learned linear
projection of the inputs, builds a dense nodes-by-nodes coefficient matrix
in which every edge's scalar attention score (the learned attention map
applied to the concatenation of `Wh[u]` and `Wh[v]`) is written to both the
`(u,v)` and `(v,u)` entries while non-edge entries stay zero, applies the
leaky rectifier with the configured slope entrywise and then a softmax over
each entire row, and returns the output activation applied to the product of
the resulting attention matrix with `Wh`. -/
theorem gat_forward_spec {inF outF : ℕ} (M : GAT inF outF) (ex : ℚ → ℚ)
    (g : Graph) (X : Mat g.n inF) :
    M.forward ex g X = fun i k =>
      M.act (∑ j,
        softmaxRow ex (fun l => leakyRelu M.slope (specCoeffs M g X i l)) j *
          M.Wh X j k) := by
  funext i k
  simp only [GAT.forward, GAT.alpha, softmaxRow, coeffs_eq_specCoeffs]

/-- C9: the pre-softmax coefficient matrix produced by the edge loop is
symmetric, whatever the edge list and its iteration order: each per-edge
score is written to both mirrored entries, and a later edge overwrites both
entries together. -/
theorem coeffs_symm {inF outF : ℕ} (M : GAT inF outF) (g : Graph)
    (X : Mat g.n inF) (u v : Fin g.n) :
    M.coeffs g X u v = M.coeffs g X v u := by
  rw [GAT.coeffs]
  have key : ∀ (es : List (Fin g.n × Fin g.n)) (m : Mat g.n g.n),
      (∀ a b, m a b = m b a) → ∀ a b,
      es.foldl (GAT.edgeStep M (M.Wh X)) m a b =
        es.foldl (GAT.edgeStep M (M.Wh X)) m b a := by
    intro es
    induction es with
    | nil => intro m hm a b; exact hm a b
    | cons e es ih =>
      intro m hm a b
      rw [List.foldl_cons]
      apply ih
      intro x y
      simp only [GAT.edgeStep]
      by_cases h : (x = e.1 ∧ y = e.2) ∨ (x = e.2 ∧ y = e.1)
      · have h' : (y = e.1 ∧ x = e.2) ∨ (y = e.2 ∧ x = e.1) := by tauto
        rw [if_pos h, if_pos h']
      · have h' : ¬((y = e.1 ∧ x = e.2) ∨ (y = e.2 ∧ x = e.1)) := by tauto
        rw [if_neg h, if_neg h', hm]
  exact key g.edges (zeros g.n g.n) (fun _ _ => rfl) u v

/-- C2: on a graph with `n` nodes and no edges, the pre-softmax coefficient
matrix is entirely zero, and after the row-wise softmax every row of the
attention matrix assigns `1/n` to every node. (`ex` models the exponential
used by `F.softmax`; for the real exponential `ex 0 = 1 ≠ 0`.) -/
theorem noEdges_uniform {inF outF : ℕ} (M : GAT inF outF) (ex : ℚ → ℚ)
    (n : ℕ) (X : Mat n inF) (hn : 0 < n) (hex : ex 0 ≠ 0) :
    M.coeffs ⟨n, []⟩ X = zeros n n ∧
      ∀ i j, M.alpha ex ⟨n, []⟩ X i j = 1 / (n : ℚ) := by
  have hc : M.coeffs ⟨n, []⟩ X = zeros n n := rfl
  refine ⟨hc, fun i j => ?_⟩
  have h0 : ∀ k : Fin n, leakyRelu M.slope (M.coeffs ⟨n, []⟩ X i k) = 0 := by
    intro k
    rw [hc]
    simp [zeros, leakyRelu]
  simp only [GAT.alpha, h0]
  rw [Finset.sum_const, Finset.card_univ, Fintype.card_fin, nsmul_eq_mul]
  have hn' : (n : ℚ) ≠ 0 := Nat.cast_ne_zero.mpr hn.ne'
  field_simp
  ring

/-- A concrete attention model used to witness the degenerate-softmax
behavior. -/
def gatW : GAT 1 1 :=
  ⟨fun _ _ => 0, fun _ => 0, fun _ => 0, 0, 1/5, id⟩

theorem noEdges_uniform_witness :
    gatW.coeffs ⟨2, []⟩ (fun _ _ => 0) = zeros 2 2 ∧
      ∀ i j, gatW.alpha (fun _ => 1) ⟨2, []⟩ (fun _ _ => 0) i j = 1 / ((2:ℕ) : ℚ) :=
  noEdges_uniform gatW (fun _ => 1) 2 (fun _ _ => 0) (by norm_num) (by norm_num)

/-! ### The evaluation routine -/

/-- Models `np.where(output >= 0.5, 1, 0)`: the binary prediction for each
node-class pair is 1 exactly when the raw output is at least one half. -/
def threshold {n nC : ℕ} (output : Mat n nC) : Fin n → Fin nC → Bool :=
  fun i k => decide ((1 : ℚ) / 2 ≤ output i k)

/-- Pooled true positives over all node-class pairs. -/
def truePos {n nC : ℕ} (y p : Fin n → Fin nC → Bool) : ℕ :=
  ∑ i, ∑ k, if y i k ∧ p i k then 1 else 0

/-- Pooled false positives over all node-class pairs. -/
def falsePos {n nC : ℕ} (y p : Fin n → Fin nC → Bool) : ℕ :=
  ∑ i, ∑ k, if ¬y i k ∧ p i k then 1 else 0

/-- Pooled false negatives over all node-class pairs. -/
def falseNeg {n nC : ℕ} (y p : Fin n → Fin nC → Bool) : ℕ :=
  ∑ i, ∑ k, if y i k ∧ ¬p i k then 1 else 0

/-- Models `sklearn.metrics.f1_score(y, p, average="micro")`: F1 of the counts
pooled across all labels, and 0 when the pooled denominator is zero. -/
def microF1 {n nC : ℕ} (y p : Fin n → Fin nC → Bool) : ℚ :=
  if 2 * truePos y p + falsePos y p + falseNeg y p = 0 then 0
  else (2 * truePos y p : ℚ) / (2 * truePos y p + falsePos y p + falseNeg y p : ℕ)

/-- A duck-typed model as `evaluate` uses it: the active-graph field `g`,
the train/eval flag, and the `logits` method. `logits` receives the ambient
gradient-tracking mode as its first argument, so that the embedding records
under which mode the forward pass ran, and the current active graph as its
second. -/
structure MState (n inF nC : ℕ) where
  g : Option Graph
  training : Bool
  logitsFn : Bool → Option Graph → Mat n inF → Mat n nC

/-- Models `evaluate(features, model, subgraph, labels, loss_fcn)`: inside
`torch.no_grad()` (gradient mode `false`), switch the model to eval mode,
set its active graph to `subgraph`, run the forward pass, compute the loss,
threshold the output at 0.5 and score the predictions with micro-F1.
Returns `((score, loss), model-after-the-call)`. -/
def evaluate {n inF nC : ℕ} (features : Mat n inF) (model : MState n inF nC)
    (subgraph : Graph) (labels : Fin n → Fin nC → Bool)
    (lossFcn : Mat n nC → (Fin n → Fin nC → Bool) → ℚ) :
    (ℚ × ℚ) × MState n inF nC :=
  let m1 : MState n inF nC := { model with training := false }
  let m2 : MState n inF nC := { m1 with g := some subgraph }
  let output := m2.logitsFn false m2.g features
  let lossData := lossFcn output labels
  let predict := threshold output
  let score := microF1 labels predict
  ((score, lossData), m2)

/-- C3: `evaluate` runs the forward pass with gradient tracking disabled and
the model's active graph set to the given subgraph, computes the loss of the
output against the labels, derives a binary prediction that is 1 exactly
when the raw output is at least 0.5, and returns the pair (micro-averaged F1
of these predictions against the labels, scalar loss). -/
theorem evaluate_spec {n inF nC : ℕ} (features : Mat n inF)
    (model : MState n inF nC) (subgraph : Graph)
    (labels : Fin n → Fin nC → Bool)
    (lossFcn : Mat n nC → (Fin n → Fin nC → Bool) → ℚ) :
    evaluate features model subgraph labels lossFcn =
      ((microF1 labels
          (threshold (model.logitsFn false (some subgraph) features)),
        lossFcn (model.logitsFn false (some subgraph) features) labels),
       { model with training := false, g := some subgraph }) ∧
      (∀ (output : Mat n nC) i k,
        threshold output i k = true ↔ (1 : ℚ) / 2 ≤ output i k) := by
  refine ⟨rfl, fun output i k => ?_⟩
  simp [threshold]

/-! ### Model selection in `main` -/

/-- The two model variants `main` can construct. -/
inductive ModelChoice
  | bgm
  | gat
deriving DecidableEq

/-- The model dispatch of `main`:
`if args.model == "BGM": model = BasicGraphModel(...) else: model = GraphAttentionNetwork(...)`. -/
def chooseModel (s : String) : ModelChoice :=
  if s = "BGM" then ModelChoice.bgm else ModelChoice.gat

/-- C6: `main` constructs the layered graph-convolution model exactly when
the `--model` flag equals `"BGM"`, and for every other string — including
misspelled names — it silently constructs the graph-attention model; the
dispatch is total, so no error is ever raised. -/
theorem chooseModel_spec (s : String) :
    (chooseModel s = ModelChoice.bgm ↔ s = "BGM") ∧
      (s ≠ "BGM" → chooseModel s = ModelChoice.gat) := by
  unfold chooseModel
  by_cases h : s = "BGM" <;> simp [h]

theorem chooseModel_witness :
    ("BGm" : String) ≠ "BGM" ∧ chooseModel "BGm" = ModelChoice.gat :=
  ⟨by decide, (chooseModel_spec "BGm").2 (by decide)⟩

/-! ### Collation: `collate_fn` and `dgl.batch` -/

/-- A graph with natural-number node identifiers, the form in which
`dgl.batch` combines several graphs. -/
structure GraphN where
  n : ℕ
  edges : List (ℕ × ℕ)

/-- Modelled from the spec: `dgl.batch` is the external graph-batching
utility merging multiple graphs into one block-diagonal graph; node `v` of
a later input graph is shifted by the total node count of the earlier
graphs. -/
def dglBatch : List GraphN → GraphN
  | [] => ⟨0, []⟩
  | g :: gs =>
    let rest := dglBatch gs
    ⟨g.n + rest.n, g.edges ++ rest.edges.map (fun e => (g.n + e.1, g.n + e.2))⟩

/-- One dataset sample: a graph, its node-feature rows and its node-label
rows (one row per node). -/
structure Sample where
  graph : GraphN
  features : List (List ℚ)
  labels : List (List ℚ)

/-- Models `collate_fn(sample)`: unzip the samples, batch the graphs with
`dgl.batch`, and concatenate the feature rows and the label rows
(`np.concatenate`). -/
def collate_fn (sample : List Sample) :
    GraphN × List (List ℚ) × List (List ℚ) :=
  (dglBatch (sample.map Sample.graph),
   (sample.map Sample.features).flatten,
   (sample.map Sample.labels).flatten)

lemma dglBatch_n (gs : List GraphN) :
    (dglBatch gs).n = (gs.map GraphN.n).sum := by
  induction gs with
  | nil => rfl
  | cons g gs ih => simp [dglBatch, ih]

lemma join_getElem {α : Type} (L : List (List α)) (k : ℕ) (hk : k < L.length)
    (r : ℕ) (hr : r < (L.get ⟨k, hk⟩).length) :
    L.flatten[((L.take k).map List.length).sum + r]? = (L.get ⟨k, hk⟩)[r]? := by
  induction L generalizing k with
  | nil => exact absurd hk (Nat.not_lt_zero k)
  | cons x L ih =>
    cases k with
    | zero =>
      simp only [List.take_zero, List.map_nil, List.sum_nil, Nat.zero_add,
        List.flatten, List.get]
      exact List.getElem?_append_left hr
    | succ k =>
      have hk' : k < L.length := Nat.lt_of_succ_lt_succ hk
      have hoff : (((x :: L).take (k + 1)).map List.length).sum + r =
          x.length + ((((L.take k).map List.length).sum) + r) := by
        simp [List.take_succ_cons, Nat.add_assoc]
      rw [hoff]
      have happ : (x :: L).flatten = x ++ L.flatten := rfl
      rw [happ]
      rw [List.getElem?_append_right (Nat.le_add_right _ _)]
      simp only [Nat.add_sub_cancel_left]
      exact ih k hk' hr

/-- C4: collating a non-empty list of (graph, features, labels) samples
yields a combined graph whose node count is the sum of the individual node
counts, feature and label matrices with exactly that many rows, and the rows
of the `k`-th sample appear contiguously, in their original order, at the
offset given by the node counts of the earlier samples. -/
theorem collate_fn_spec (sample : List Sample) (hne : sample ≠ [])
    (hrows : ∀ s ∈ sample,
      s.features.length = s.graph.n ∧ s.labels.length = s.graph.n) :
    (collate_fn sample).1.n = (sample.map (fun s => s.graph.n)).sum ∧
    (collate_fn sample).2.1.length = (sample.map (fun s => s.graph.n)).sum ∧
    (collate_fn sample).2.2.length = (sample.map (fun s => s.graph.n)).sum ∧
    (∀ (k : ℕ) (hk : k < sample.length) (r : ℕ),
      r < (sample.get ⟨k, hk⟩).features.length →
      (collate_fn sample).2.1[(((sample.take k).map
          (fun s => s.graph.n)).sum) + r]? =
        (sample.get ⟨k, hk⟩).features[r]?) ∧
    (∀ (k : ℕ) (hk : k < sample.length) (r : ℕ),
      r < (sample.get ⟨k, hk⟩).labels.length →
      (collate_fn sample).2.2[(((sample.take k).map
          (fun s => s.graph.n)).sum) + r]? =
        (sample.get ⟨k, hk⟩).labels[r]?) := by
  have hfeat : (sample.map Sample.features).map List.length =
      sample.map (fun s => s.graph.n) := by
    rw [List.map_map]
    exact List.map_congr_left (fun s hs => (hrows s hs).1)
  have hlab : (sample.map Sample.labels).map List.length =
      sample.map (fun s => s.graph.n) := by
    rw [List.map_map]
    exact List.map_congr_left (fun s hs => (hrows s hs).2)
  refine ⟨?_, ?_, ?_, ?_, ?_⟩
  · rw [collate_fn, dglBatch_n, List.map_map]
    rfl
  · show (sample.map Sample.features).flatten.length = _
    rw [List.length_flatten, hfeat]
  · show (sample.map Sample.labels).flatten.length = _
    rw [List.length_flatten, hlab]
  · intro k hk r hr
    have hk' : k < (sample.map Sample.features).length := by
      rw [List.length_map]; exact hk
    have hget : (sample.map Sample.features).get ⟨k, hk'⟩ =
        (sample.get ⟨k, hk⟩).features := List.get_map ..
    have hoff : ((sample.take k).map (fun s => s.graph.n)).sum =
        (((sample.map Sample.features).take k).map List.length).sum := by
      rw [← List.map_take, List.map_map]
      refine congrArg List.sum (List.map_congr_left fun s hs => ?_)
      exact ((hrows s (List.mem_of_mem_take hs)).1).symm
    rw [hoff]
    rw [show (collate_fn sample).2.1 = (sample.map Sample.features).flatten from rfl]
    rw [join_getElem (sample.map Sample.features) k hk' r (by rw [hget]; exact hr)]
    rw [hget]
  · intro k hk r hr
    have hk' : k < (sample.map Sample.labels).length := by
      rw [List.length_map]; exact hk
    have hget : (sample.map Sample.labels).get ⟨k, hk'⟩ =
        (sample.get ⟨k, hk⟩).labels := List.get_map ..
    have hoff : ((sample.take k).map (fun s => s.graph.n)).sum =
        (((sample.map Sample.labels).take k).map List.length).sum := by
      rw [← List.map_take, List.map_map]
      refine congrArg List.sum (List.map_congr_left fun s hs => ?_)
      exact ((hrows s (List.mem_of_mem_take hs)).2).symm
    rw [hoff]
    rw [show (collate_fn sample).2.2 = (sample.map Sample.labels).flatten from rfl]
    rw [join_getElem (sample.map Sample.labels) k hk' r (by rw [hget]; exact hr)]
    rw [hget]

/-- A concrete two-sample batch used to witness the collation contract. -/
def sampleW : List Sample :=
  [⟨⟨2, [(0, 1)]⟩, [[1], [2]], [[0], [1]]⟩,
   ⟨⟨1, []⟩, [[3]], [[1]]⟩]

theorem collate_fn_spec_witness :
    (collate_fn sampleW).1.n = (sampleW.map (fun s => s.graph.n)).sum ∧
    (collate_fn sampleW).2.1.length = (sampleW.map (fun s => s.graph.n)).sum ∧
    (collate_fn sampleW).2.2.length = (sampleW.map (fun s => s.graph.n)).sum ∧
    (∀ (k : ℕ) (hk : k < sampleW.length) (r : ℕ),
      r < (sampleW.get ⟨k, hk⟩).features.length →
      (collate_fn sampleW).2.1[(((sampleW.take k).map
          (fun s => s.graph.n)).sum) + r]? =
        (sampleW.get ⟨k, hk⟩).features[r]?) ∧
    (∀ (k : ℕ) (hk : k < sampleW.length) (r : ℕ),
      r < (sampleW.get ⟨k, hk⟩).labels.length →
      (collate_fn sampleW).2.2[(((sampleW.take k).map
          (fun s => s.graph.n)).sum) + r]? =
        (sampleW.get ⟨k, hk⟩).labels[r]?) :=
  collate_fn_spec sampleW (by simp [sampleW])
    (by intro s hs; simp [sampleW] at hs; rcases hs with rfl | rfl <;> exact ⟨rfl, rfl⟩)

/-! ### `main`: persistence and control flow -/

/-- The `--mode` flag: `choices=["train", "test"]`. -/
inductive Mode
  | train
  | test
deriving DecidableEq

/-- The error raised by `torch.load` on a missing file
(`FileNotFoundError`). -/
inductive MainError
  | fileNotFound
deriving DecidableEq

/-- Models `torch.save(model.state_dict(), MODEL_STATE_FILE)`: after the call the
file holds exactly the serialized parameters. -/
def torchSave {P : Type} (p : P) (_fs : Option P) : Option P := some p

/-- Models `torch.load(MODEL_STATE_FILE)`: loading from a missing file raises a
missing-file error; otherwise the saved parameters round-trip exactly. -/
def torchLoad {P : Type} : Option P → Except MainError P
  | none => Except.error MainError.fileNotFound
  | some p => Except.ok p

/-- Observable events of a run of `main`, in order: saving the parameters,
loading parameters from the file, running the final test evaluation with
given parameters. -/
inductive Ev (P : Type)
  | saved (p : P)
  | loaded (p : P)
  | tested (p : P)

/-- The tail of `main` after model construction, with the numeric work
abstracted: `initP` are the freshly initialized parameters, `trainFn` is the
whole training loop's effect on them, `testFn` the final test score, and
`fs0` the content of `MODEL_STATE_FILE` on entry. If training, run the loop
and save; then always reload from the file; finally run the test evaluation
on the loaded parameters. Returns the final score with the trace of
events. -/
def main {P : Type} (mode : Mode) (initP : P) (trainFn : P → P)
    (testFn : P → ℚ) (fs0 : Option P) : Except MainError (ℚ × List (Ev P)) :=
  let afterTrain : P × Option P × List (Ev P) :=
    match mode with
    | Mode.train =>
      let pt := trainFn initP
      (pt, torchSave pt fs0, [Ev.saved pt])
    | Mode.test => (initP, fs0, [])
  match torchLoad afterTrain.2.1 with
  | Except.error e => Except.error e
  | Except.ok q =>
      Except.ok (testFn q, afterTrain.2.2 ++ [Ev.loaded q, Ev.tested q])

/-- C5: in every successful run of `main`, in both modes, the test
evaluation runs on parameters that were just deserialized from the weight
file (the trace ends `[loaded q, tested q]` and the score is `testFn q`);
in train mode the reload happens even though the same state was just saved,
so the trace is exactly save, load, test of the trained parameters. -/
theorem main_reloads_before_test {P : Type} (mode : Mode) (initP : P)
    (trainFn : P → P) (testFn : P → ℚ) (fs0 : Option P) (s : ℚ)
    (evs : List (Ev P))
    (h : main mode initP trainFn testFn fs0 = Except.ok (s, evs)) :
    ∃ q pre, evs = pre ++ [Ev.loaded q, Ev.tested q] ∧ s = testFn q ∧
      (mode = Mode.train → pre = [Ev.saved q] ∧ q = trainFn initP) ∧
      (mode = Mode.test → pre = [] ∧ fs0 = some q) := by
  cases mode with
  | train =>
    have hmain : main Mode.train initP trainFn testFn fs0 =
        Except.ok (testFn (trainFn initP),
          [Ev.saved (trainFn initP), Ev.loaded (trainFn initP),
           Ev.tested (trainFn initP)]) := rfl
    rw [hmain] at h
    simp only [Except.ok.injEq, Prod.mk.injEq] at h
    obtain ⟨h1, h2⟩ := h
    refine ⟨trainFn initP, [Ev.saved (trainFn initP)], h2.symm, h1.symm,
      fun _ => ⟨rfl, rfl⟩, fun hmode => ?_⟩
    exact absurd hmode (by decide)
  | test =>
    cases fs0 with
    | none => exact absurd h (by simp [main, torchLoad])
    | some p0 =>
      have hmain : main Mode.test initP trainFn testFn (some p0) =
          Except.ok (testFn p0, [Ev.loaded p0, Ev.tested p0]) := rfl
      rw [hmain] at h
      simp only [Except.ok.injEq, Prod.mk.injEq] at h
      obtain ⟨h1, h2⟩ := h
      refine ⟨p0, [], h2.symm, h1.symm, fun hmode => ?_, fun _ => ⟨rfl, rfl⟩⟩
      exact absurd hmode (by decide)

theorem main_reloads_before_test_witness :
    ∃ (q : ℕ) (pre : List (Ev ℕ)),
      [Ev.saved 1, Ev.loaded 1, Ev.tested 1] = pre ++ [Ev.loaded q, Ev.tested q] ∧
      (7 : ℚ) = (fun _ : ℕ => (7 : ℚ)) q ∧
      (Mode.train = Mode.train → pre = [Ev.saved q] ∧ q = (fun p : ℕ => p + 1) 0) ∧
      (Mode.train = Mode.test → pre = [] ∧ (none : Option ℕ) = some q) :=
  main_reloads_before_test Mode.train 0 (fun p => p + 1) (fun _ => (7 : ℚ))
    none 7 [Ev.saved 1, Ev.loaded 1, Ev.tested 1] rfl

/-- C8: running `main` with `--mode test` when no weight file exists raises
the missing-file error of `torch.load`, and never reaches the test
evaluation of the freshly initialized model. -/
theorem main_test_missing_file {P : Type} (initP : P) (trainFn : P → P)
    (testFn : P → ℚ) :
    main Mode.test initP trainFn testFn (none : Option P) =
        Except.error MainError.fileNotFound ∧
      ∀ r, main Mode.test initP trainFn testFn (none : Option P) ≠
        Except.ok r := by
  refine ⟨rfl, fun r h => ?_⟩
  rw [show main Mode.test initP trainFn testFn (none : Option P) =
    Except.error MainError.fileNotFound from rfl] at h
  cases h

/-! ### The training loop -/

/-- The numeric work of one training iteration, abstracted: `batchStep` is
one mini-batch's forward pass, loss, backward pass and optimizer step
(returning the updated parameters and the scalar loss); `evalScore` is the
micro-F1 that `evaluate` returns for one test-set graph. -/
structure TrainCfg (P B S : Type) where
  batchStep : P → B → P × ℚ
  evalScore : P → S → ℚ

/-- Models `np.array(l).mean()`. -/
def listMean (l : List ℚ) : ℚ := l.sum / l.length

/-- One epoch's pass over the mini-batched train loader: thread the
parameters through every batch, collecting each batch's loss. -/
def runEpoch {P B S : Type} (cfg : TrainCfg P B S) (batches : List B)
    (p : P) : P × List ℚ :=
  batches.foldl (fun acc b =>
    let r := cfg.batchStep acc.1 b
    (r.1, acc.2 ++ [r.2])) (p, [])

/-- The progress lines `train` prints: the mean batch loss of an epoch, and
the mean micro-F1 of a held-out evaluation run at an epoch. Epoch indices
are zero-based (the code prints `epoch + 1` but tests `epoch % 5 == 0` on
the zero-based index). -/
inductive TEv
  | epochLoss (epoch : ℕ) (meanLoss : ℚ)
  | evalF1 (epoch : ℕ) (meanF1 : ℚ)
deriving DecidableEq

/-- The epoch loop of `train`, from zero-based epoch index `e` with `k`
epochs remaining: per epoch run all train batches and log the mean batch
loss; when `e % 5 == 0`, evaluate every test-set graph individually (the
loop runs over `test_dataset`, not over the mini-batched loader) and log
the mean micro-F1. -/
def trainFrom {P B S : Type} (cfg : TrainCfg P B S) (batches : List B)
    (testSet : List S) : ℕ → ℕ → P → P × List TEv
  | 0, _, p => (p, [])
  | k + 1, e, p =>
    let r := runEpoch cfg batches p
    let evs1 := [TEv.epochLoss e (listMean r.2)]
    let evs2 := if e % 5 = 0
      then [TEv.evalF1 e (listMean (testSet.map (cfg.evalScore r.1)))]
      else []
    let rest := trainFrom cfg batches testSet k (e + 1) r.1
    (rest.1, evs1 ++ evs2 ++ rest.2)

/-- Models `train(model, loss_fcn, device, optimizer, train_dataloader,
test_dataset)`: `for epoch in range(args.epochs)` starting from the model's
initial parameters. -/
def trainLoop {P B S : Type} (cfg : TrainCfg P B S) (batches : List B)
    (testSet : List S) (epochs : ℕ) (p0 : P) : P × List TEv :=
  trainFrom cfg batches testSet epochs 0 p0

/-- The parameters held by the model after `e` full epochs. -/
def epochParams {P B S : Type} (cfg : TrainCfg P B S) (batches : List B)
    (p0 : P) : ℕ → P
  | 0 => p0
  | e + 1 => (runEpoch cfg batches (epochParams cfg batches p0 e)).1

lemma trainFrom_mem_evalF1 {P B S : Type} (cfg : TrainCfg P B S)
    (batches : List B) (testSet : List S) (p0 : P) (e : ℕ) (s : ℚ) :
    ∀ (k e0 : ℕ),
    (TEv.evalF1 e s ∈
        (trainFrom cfg batches testSet k e0
          (epochParams cfg batches p0 e0)).2 ↔
      e0 ≤ e ∧ e < e0 + k ∧ e % 5 = 0 ∧
        s = listMean (testSet.map
          (cfg.evalScore (epochParams cfg batches p0 (e + 1))))) := by
  intro k
  induction k with
  | zero =>
    intro e0
    simp only [trainFrom, List.not_mem_nil, false_iff]
    rintro ⟨h1, h2, -, -⟩
    omega
  | succ k ih =>
    intro e0
    have hT : (trainFrom cfg batches testSet (k + 1) e0
        (epochParams cfg batches p0 e0)).2 =
        [TEv.epochLoss e0 (listMean
          (runEpoch cfg batches (epochParams cfg batches p0 e0)).2)] ++
        (if e0 % 5 = 0
          then [TEv.evalF1 e0 (listMean (testSet.map
            (cfg.evalScore (epochParams cfg batches p0 (e0 + 1)))))]
          else []) ++
        (trainFrom cfg batches testSet k (e0 + 1)
          (epochParams cfg batches p0 (e0 + 1))).2 := rfl
    rw [hT, List.mem_append, List.mem_append, ih (e0 + 1)]
    have hloss : TEv.evalF1 e s ∈ [TEv.epochLoss e0 (listMean
        (runEpoch cfg batches (epochParams cfg batches p0 e0)).2)] ↔
        False := by simp
    rw [hloss]
    by_cases h5 : e0 % 5 = 0
    · rw [if_pos h5]
      have hone : TEv.evalF1 e s ∈ [TEv.evalF1 e0 (listMean (testSet.map
          (cfg.evalScore (epochParams cfg batches p0 (e0 + 1)))))] ↔
          (e = e0 ∧ s = listMean (testSet.map
            (cfg.evalScore (epochParams cfg batches p0 (e0 + 1))))) := by
        simp
      rw [hone]
      constructor
      · rintro ((h | ⟨rfl, rfl⟩) | ⟨h1, h2, h3, h4⟩)
        · exact absurd h id
        · exact ⟨Nat.le_refl e, by omega, h5, rfl⟩
        · exact ⟨by omega, by omega, h3, h4⟩
      · rintro ⟨h1, h2, h3, h4⟩
        rcases Nat.eq_or_lt_of_le h1 with rfl | hlt
        · exact Or.inl (Or.inr ⟨rfl, h4⟩)
        · exact Or.inr ⟨hlt, by omega, h3, h4⟩
    · rw [if_neg h5]
      have hnone : TEv.evalF1 e s ∈ ([] : List TEv) ↔ False := by simp
      rw [hnone]
      constructor
      · rintro ((h | h) | ⟨h1, h2, h3, h4⟩)
        · exact absurd h id
        · exact absurd h id
        · exact ⟨by omega, by omega, h3, h4⟩
      · rintro ⟨h1, h2, h3, h4⟩
        have hne : e ≠ e0 := fun he => h5 (he ▸ h3)
        exact Or.inr ⟨by omega, by omega, h3, h4⟩

lemma trainFrom_mem_epochLoss {P B S : Type} (cfg : TrainCfg P B S)
    (batches : List B) (testSet : List S) (p0 : P) (e : ℕ) (m : ℚ) :
    ∀ (k e0 : ℕ),
    (TEv.epochLoss e m ∈
        (trainFrom cfg batches testSet k e0
          (epochParams cfg batches p0 e0)).2 ↔
      e0 ≤ e ∧ e < e0 + k ∧
        m = listMean ((runEpoch cfg batches
          (epochParams cfg batches p0 e)).2)) := by
  intro k
  induction k with
  | zero =>
    intro e0
    simp only [trainFrom, List.not_mem_nil, false_iff]
    rintro ⟨h1, h2, -⟩
    omega
  | succ k ih =>
    intro e0
    have hT : (trainFrom cfg batches testSet (k + 1) e0
        (epochParams cfg batches p0 e0)).2 =
        [TEv.epochLoss e0 (listMean
          (runEpoch cfg batches (epochParams cfg batches p0 e0)).2)] ++
        (if e0 % 5 = 0
          then [TEv.evalF1 e0 (listMean (testSet.map
            (cfg.evalScore (epochParams cfg batches p0 (e0 + 1)))))]
          else []) ++
        (trainFrom cfg batches testSet k (e0 + 1)
          (epochParams cfg batches p0 (e0 + 1))).2 := rfl
    rw [hT, List.mem_append, List.mem_append, ih (e0 + 1)]
    have hone : TEv.epochLoss e m ∈ [TEv.epochLoss e0 (listMean
        (runEpoch cfg batches (epochParams cfg batches p0 e0)).2)] ↔
        (e = e0 ∧ m = listMean
          (runEpoch cfg batches (epochParams cfg batches p0 e0)).2) := by
      simp
    have hifmem : TEv.epochLoss e m ∈
        (if e0 % 5 = 0
          then [TEv.evalF1 e0 (listMean (testSet.map
            (cfg.evalScore (epochParams cfg batches p0 (e0 + 1)))))]
          else []) ↔ False := by
      split <;> simp
    rw [hone, hifmem]
    constructor
    · rintro ((⟨rfl, rfl⟩ | h) | ⟨h1, h2, h3⟩)
      · exact ⟨Nat.le_refl e, by omega, rfl⟩
      · exact absurd h id
      · exact ⟨by omega, by omega, h3⟩
    · rintro ⟨h1, h2, h3⟩
      rcases Nat.eq_or_lt_of_le h1 with rfl | hlt
      · exact Or.inl (Or.inl ⟨rfl, h3⟩)
      · exact Or.inr ⟨hlt, by omega, h3⟩

/-- C7: in every training run, each epoch logs the mean batch loss, and the
held-out evaluation runs exactly on the epochs whose zero-based index is
divisible by 5 (hence on epoch 0), computing the mean of the micro-F1
scores obtained by evaluating each test-set graph individually (the test
set itself, not the mini-batched loader) with the parameters current after
that epoch's updates. -/
theorem trainLoop_schedule {P B S : Type} (cfg : TrainCfg P B S)
    (batches : List B) (testSet : List S) (epochs : ℕ) (p0 : P) :
    (∀ (e : ℕ) (m : ℚ),
      TEv.epochLoss e m ∈ (trainLoop cfg batches testSet epochs p0).2 ↔
        e < epochs ∧
          m = listMean ((runEpoch cfg batches
            (epochParams cfg batches p0 e)).2)) ∧
    (∀ (e : ℕ) (s : ℚ),
      TEv.evalF1 e s ∈ (trainLoop cfg batches testSet epochs p0).2 ↔
        e < epochs ∧ e % 5 = 0 ∧
          s = listMean (testSet.map
            (cfg.evalScore (epochParams cfg batches p0 (e + 1))))) := by
  constructor
  · intro e m
    have h := trainFrom_mem_epochLoss cfg batches testSet p0 e m epochs 0
    rw [show epochParams cfg batches p0 0 = p0 from rfl] at h
    rw [trainLoop, h]
    constructor
    · rintro ⟨-, h2, h3⟩; exact ⟨by omega, h3⟩
    · rintro ⟨h2, h3⟩; exact ⟨Nat.zero_le e, by omega, h3⟩
  · intro e s
    have h := trainFrom_mem_evalF1 cfg batches testSet p0 e s epochs 0
    rw [show epochParams cfg batches p0 0 = p0 from rfl] at h
    rw [trainLoop, h]
    constructor
    · rintro ⟨-, h2, h3, h4⟩; exact ⟨by omega, h3, h4⟩
    · rintro ⟨h2, h3, h4⟩; exact ⟨Nat.zero_le e, by omega, h3, h4⟩

/-! ### `BasicGraphModel` -/

/-- Modelled from the spec: a `GraphConv` layer of the external graph
library — for every node, a normalized sum of in-neighbor features
transformed by a shared learned linear map, plus a bias, followed by the
layer's activation (`activation=nonlinearity` for hidden layers, the
identity for the output layer). Feature vectors are ℕ-indexed so that
layers of different widths can be chained; `normCoeff` abstracts the
library's degree normalization (a function of the two endpoint degrees;
the library's `1/sqrt(deg u * deg v)` is irrational, so it is a parameter
of the embedding). `gField` models the `g` attribute that
`BasicGraphModel.logits` writes onto every layer; the layer's computation is
invoked as `layer(self.g, outputs)` with the graph passed explicitly and
never reads `gField`. -/
structure GraphConvLayer where
  inDim : ℕ
  outDim : ℕ
  W : ℕ → ℕ → ℚ
  bias : ℕ → ℚ
  act : ℚ → ℚ
  normCoeff : ℕ → ℕ → ℚ
  gField : Option Graph

/-- In-degree of a node: the number of edges pointing at it. -/
def Graph.deg (g : Graph) (v : Fin g.n) : ℕ :=
  (g.edges.filter (fun e => decide (e.2 = v))).length

/-- Models `layer(graph, feat)`: message passing over the explicitly passed graph.
Positions at or beyond `outDim` of the ℕ-indexed output are zero. -/
def GraphConvLayer.apply (L : GraphConvLayer) (g : Graph)
    (X : Fin g.n → ℕ → ℚ) : Fin g.n → ℕ → ℚ := fun i k =>
  if k < L.outDim then
    L.act ((g.edges.map (fun e =>
      if e.2 = i then
        L.normCoeff (g.deg e.1) (g.deg i) *
          ∑ d ∈ Finset.range L.inDim, L.W k d * X e.1 d
      else 0)).sum + L.bias k)
  else 0

/-- Models `BasicGraphModel`: the active graph `g` and the `nn.ModuleList` of
`GraphConv` layers. -/
structure BasicGraphModel where
  g : Graph
  layers : List GraphConvLayer

/-- Models `BasicGraphModel.forward`: fold the layers over the features, each
called as `layer(self.g, outputs)`. -/
def BasicGraphModel.forward (m : BasicGraphModel)
    (X : Fin m.g.n → ℕ → ℚ) : Fin m.g.n → ℕ → ℚ :=
  m.layers.foldl (fun outs layer => layer.apply m.g outs) X

/-- Models `BasicGraphModel.logits`: first set every layer's `g` attribute to the
model's graph (`for layer in self.layers: layer.g = self.g`), then call
`self(features)`. -/
def BasicGraphModel.logits (m : BasicGraphModel)
    (X : Fin m.g.n → ℕ → ℚ) : Fin m.g.n → ℕ → ℚ :=
  let m' : BasicGraphModel :=
    { m with layers := m.layers.map (fun l => { l with gField := some m.g }) }
  m'.forward X

/-- C10: `BasicGraphModel.logits` returns exactly what the forward pass
returns: the per-layer assignment of the model's graph onto each layer's
`g` attribute has no effect, because every layer is applied to the graph
passed as an explicit argument and never reads that attribute. -/
theorem bgm_logits_eq_forward (m : BasicGraphModel)
    (X : Fin m.g.n → ℕ → ℚ) : m.logits X = m.forward X := by
  have key : ∀ (ls : List GraphConvLayer) (Y : Fin m.g.n → ℕ → ℚ),
      (ls.map (fun l => { l with gField := some m.g })).foldl
        (fun outs layer => layer.apply m.g outs) Y =
      ls.foldl (fun outs layer => layer.apply m.g outs) Y := by
    intro ls
    induction ls with
    | nil => intro Y; rfl
    | cons l ls ih =>
      intro Y
      rw [List.map_cons, List.foldl_cons, List.foldl_cons]
      rw [show ({ l with gField := some m.g } : GraphConvLayer).apply m.g Y =
        l.apply m.g Y from rfl]
      exact ih _
  exact key m.layers X

end PPI
